import Mathlib

/-!
Shallow embedding of the events2graph selection / metric / edge-construction
pipeline, together with theorems settling the spec claims.

Conventions of the embedding:
* numpy float arrays are modelled as `List ℚ` (exact rationals); overflow and
  rounding play no role in the claims at issue.
* Python exceptions are modelled by `Except String`; a raised exception is
  `Except.error msg`.
* External scipy / sklearn capabilities (cKDTree queries, Qhull Delaunay,
  curve_fit, moyal sampling, StandardScaler) are opaque to this repository;
  they are modelled as explicit function parameters ("oracles") where their
  internal behaviour does not decide a claim, and as faithful deterministic
  refinements of their documented contracts where it does (the cKDTree
  neighbour query is modelled as ordering candidates by squared Euclidean
  distance with ties broken by index, and missing neighbours padded with the
  documented sentinel index n).
-/

namespace Events2Graph

/-! ### numpy primitives -/

/-- `np.max` over a 1-d array: raises on a zero-size array. -/
def npMax (l : List ℚ) : Except String ℚ :=
  match l with
  | [] => .error "zero-size array to reduction operation maximum which has no identity"
  | x :: xs => .ok (xs.foldl max x)

/-- In-place boolean `mask &= other` with numpy broadcasting: the right operand
must have the mask's length or be a singleton, otherwise numpy raises. -/
def npAndInto (acc other : List Bool) : Except String (List Bool) :=
  if other.length = acc.length then .ok (List.zipWith (· && ·) acc other)
  else if other.length = 1 then .ok (acc.map (· && other.headD true))
  else .error "operands could not be broadcast together"

/-- Boolean-mask indexing `coords[mask]` (mask length equals the list length
at every call site in the source). -/
def maskFilter {β : Type} (coords : List β) (mask : List Bool) : List β :=
  (List.zip coords mask).filterMap (fun p => if p.2 then some p.1 else none)

/-! ### Event groups (hdf5 `event_<n>` groups as the predicates see them)

`utils/node_selection.py` reads the keys `pmt_time`/`time` and
`pmt_charge`/`charge`, each with the prefixed variant preferred. -/

structure EventGroup where
  pmt_time : Option (List ℚ)
  time : Option (List ℚ)
  pmt_charge : Option (List ℚ)
  charge : Option (List ℚ)

/-- `time_key = 'pmt_time' if 'pmt_time' in event_group else 'time'` followed
by the (KeyError-raising) lookup. -/
def EventGroup.timeArr (g : EventGroup) : Except String (List ℚ) :=
  match g.pmt_time with
  | some t => .ok t
  | none =>
    match g.time with
    | some t => .ok t
    | none => .error "KeyError: time"

/-- Same fallback for the charge signal. -/
def EventGroup.chargeArr (g : EventGroup) : Except String (List ℚ) :=
  match g.pmt_charge with
  | some c => .ok c
  | none =>
    match g.charge with
    | some c => .ok c
    | none => .error "KeyError: charge"

/-! ### NodeSelection (threshold predicate), utils/node_selection.py lines 17-74 -/

/-- A Python dict `{'min': .., 'max': ..}` with either key optional. -/
structure CutSpec where
  min? : Option ℚ
  max? : Option ℚ

structure NodeSelection where
  time_cut : Option CutSpec
  charge_cut : Option CutSpec

/-- The two `mask &= ...` statements guarded by `'min' in cut` / `'max' in cut`
for one optional cut dictionary applied to one signal. -/
def applyCut (cut? : Option CutSpec) (sig : List ℚ) (acc : List Bool) :
    Except String (List Bool) :=
  match cut? with
  | none => .ok acc
  | some cut => do
    let acc1 ←
      match cut.min? with
      | some m => npAndInto acc (sig.map (fun x => decide (m ≤ x)))
      | none => .ok acc
    match cut.max? with
    | some mx => npAndInto acc1 (sig.map (fun x => decide (x ≤ mx)))
    | none => .ok acc1

/-- `NodeSelection.get_mask`: extract both signals (KeyError if absent), start
from `np.ones(len(time), dtype=bool)` and AND in each set bound. -/
def NodeSelection.get_mask (sel : NodeSelection) (g : EventGroup) :
    Except String (List Bool) := do
  let time ← g.timeArr
  let charge ← g.chargeArr
  let mask := List.replicate time.length true
  let mask1 ← applyCut sel.time_cut time mask
  applyCut sel.charge_cut charge mask1

/-- Spec-side reading of one optional cut at one scalar: every set bound holds
as a closed-interval constraint, an unset bound imposes no constraint. -/
def cutHolds (cut? : Option CutSpec) (x : ℚ) : Bool :=
  match cut? with
  | none => true
  | some cut =>
    (match cut.min? with | some m => decide (m ≤ x) | none => true) &&
    (match cut.max? with | some mx => decide (x ≤ mx) | none => true)

/-! ### SelectionCompose, utils/selection_compose.py

The Python class is duck-typed over any objects exposing `get_mask`; the
embedding is therefore generic in the predicate type `α` together with its
mask function. -/

/-- `get_combined_mask(event_group, n_nodes)`: start from
`np.ones(n_nodes, dtype=bool)` and AND in each predicate's mask, each
evaluated against the same original event group. -/
def get_combined_mask {α : Type} (getMask : α → EventGroup → Except String (List Bool))
    (selections : List α) (g : EventGroup) (n_nodes : ℕ) : Except String (List Bool) :=
  selections.foldlM (fun acc sel => do
    let mask ← getMask sel g
    npAndInto acc mask) (List.replicate n_nodes true)

/-- `SelectionCompose.__call__(coordinates, event_group)`: compute the combined
mask over `len(coordinates)` nodes and apply it once. -/
def composeCall {α : Type} (getMask : α → EventGroup → Except String (List Bool))
    (selections : List α) (coords : List (List ℚ)) (g : EventGroup) :
    Except String (List (List ℚ)) := do
  let mask ← get_combined_mask getMask selections g coords.length
  .ok (maskFilter coords mask)

/-! ### Positional-read toolkit -/

instance exceptDecEq {ε α : Type} [DecidableEq ε] [DecidableEq α] :
    DecidableEq (Except ε α) := fun x y =>
  match x, y with
  | .ok a, .ok b =>
    if h : a = b then isTrue (by rw [h])
    else isFalse (fun hc => h (Except.ok.inj hc))
  | .error a, .error b =>
    if h : a = b then isTrue (by rw [h])
    else isFalse (fun hc => h (Except.error.inj hc))
  | .ok _, .error _ => isFalse (fun hc => Except.noConfusion hc)
  | .error _, .ok _ => isFalse (fun hc => Except.noConfusion hc)

@[simp] theorem ok_bind {α β : Type} (x : α) (k : α → Except String β) :
    (Except.ok x >>= k) = k x := rfl

@[simp] theorem error_bind {α β : Type} (e : String) (k : α → Except String β) :
    ((Except.error e : Except String α) >>= k) = Except.error e := rfl

theorem rangeMap_getD {α : Type} (l : List α) (d : α) :
    (List.range l.length).map (fun i => l.getD i d) = l := by
  apply List.ext_getElem (by simp)
  intro i h1 h2
  simp only [List.getElem_map, List.getElem_range]
  exact List.getD_eq_getElem l d h2

theorem getD_rangeMap {α : Type} (n i : ℕ) (f : ℕ → α) (d : α) (h : i < n) :
    (((List.range n).map f).getD i d) = f i := by
  have hlen : i < ((List.range n).map f).length := by simpa using h
  rw [List.getD_eq_getElem _ _ hlen]
  simp

theorem getD_map_of_lt {α β : Type} (p : α → β) (l : List α) (i : ℕ) (dα : α) (dβ : β)
    (h : i < l.length) : ((l.map p).getD i dβ) = p (l.getD i dα) := by
  have hlen : i < (l.map p).length := by simpa using h
  rw [List.getD_eq_getElem _ _ hlen, List.getD_eq_getElem _ _ h]
  simp

theorem getD_replicate_of_lt {α : Type} (n i : ℕ) (a d : α) (h : i < n) :
    ((List.replicate n a).getD i d) = a := by
  have hlen : i < (List.replicate n a).length := by simpa using h
  rw [List.getD_eq_getElem _ _ hlen]
  exact List.getElem_replicate _ _

/-- `npAndInto` under equal lengths, in canonical positional form. -/
theorem npAndInto_spec (acc m : List Bool) (h : m.length = acc.length) :
    npAndInto acc m =
      .ok ((List.range acc.length).map fun i => acc.getD i true && m.getD i true) := by
  rw [npAndInto, if_pos h]
  congr 1
  apply List.ext_getElem (by simp [h])
  intro i h1 h2
  have ha : i < acc.length := by simpa using h2
  have hm : i < m.length := by omega
  simp only [List.getElem_map, List.getElem_range, List.getElem_zipWith]
  rw [List.getD_eq_getElem _ _ ha, List.getD_eq_getElem _ _ hm]

/-- `applyCut` under equal lengths: one optional cut ANDs in exactly the
closed-interval constraints of its set bounds. -/
theorem applyCut_spec (cut? : Option CutSpec) (sig : List ℚ) (acc : List Bool)
    (h : sig.length = acc.length) :
    applyCut cut? sig acc =
      .ok ((List.range acc.length).map fun i =>
        acc.getD i true && cutHolds cut? (sig.getD i 0)) := by
  match cut? with
  | none =>
    simp only [applyCut, cutHolds, Bool.and_true]
    have := rangeMap_getD acc true
    rw [this]
  | some cut =>
    match hmin : cut.min?, hmax : cut.max? with
    | none, none =>
      simp only [applyCut, hmin, hmax, cutHolds, Bool.and_true]
      rw [rangeMap_getD acc true]
      rfl
    | some m, none =>
      simp only [applyCut, hmin, hmax]
      rw [npAndInto_spec _ _ (by simpa using h)]
      simp only [ok_bind, cutHolds, hmin, hmax, Bool.and_true]
      congr 1
      apply List.map_congr_left
      intro i hi
      have hi' : i < acc.length := List.mem_range.mp hi
      rw [getD_map_of_lt _ _ _ 0 _ (by omega)]
    | none, some mx =>
      simp only [applyCut, hmin, hmax, ok_bind]
      rw [npAndInto_spec _ _ (by simpa using h)]
      simp only [cutHolds, hmin, hmax, Bool.true_and]
      congr 1
      apply List.map_congr_left
      intro i hi
      have hi' : i < acc.length := List.mem_range.mp hi
      rw [getD_map_of_lt _ _ _ 0 _ (by omega)]
    | some m, some mx =>
      simp only [applyCut, hmin, hmax]
      rw [npAndInto_spec _ _ (by simpa using h)]
      simp only [ok_bind]
      rw [npAndInto_spec _ _ (by simp [h])]
      simp only [cutHolds, hmin, hmax, List.length_map, List.length_range]
      congr 1
      apply List.map_congr_left
      intro i hi
      have hi' : i < acc.length := List.mem_range.mp hi
      rw [getD_rangeMap _ _ _ _ hi', getD_map_of_lt _ _ _ 0 _ (by omega),
        getD_map_of_lt _ _ _ 0 _ (by omega), Bool.and_assoc]

theorem maskFilter_replicate_true {β : Type} (l : List β) :
    maskFilter l (List.replicate l.length true) = l := by
  induction l with
  | nil => rfl
  | cons x xs ih =>
    simp only [maskFilter, List.length_cons, List.replicate_succ, List.zip_cons_cons,
      List.filterMap_cons] at ih ⊢
    simpa using ih

/-- C2: for a Threshold predicate (`NodeSelection`) the mask at node `i` is True
iff every set bound of the time cut holds at `time[i]` and every set bound of
the charge cut holds at `charge[i]`; an unset bound imposes no constraint, and
with no bounds set the mask is all True (`cutHolds none` is constantly `true`). -/
theorem C2_threshold_mask_closed_interval (sel : NodeSelection) (g : EventGroup)
    (ts qs : List ℚ) (ht : g.timeArr = .ok ts) (hq : g.chargeArr = .ok qs)
    (hlen : qs.length = ts.length) :
    sel.get_mask g =
      .ok ((List.range ts.length).map fun i =>
        cutHolds sel.time_cut (ts.getD i 0) && cutHolds sel.charge_cut (qs.getD i 0)) := by
  simp only [NodeSelection.get_mask, ht, hq, ok_bind]
  rw [applyCut_spec _ _ _ (by simp)]
  simp only [ok_bind, List.length_replicate]
  rw [applyCut_spec _ _ _ (by simp [hlen])]
  simp only [List.length_map, List.length_range]
  congr 1
  apply List.map_congr_left
  intro i hi
  have hi' : i < ts.length := List.mem_range.mp hi
  rw [getD_rangeMap _ _ _ _ hi', getD_replicate_of_lt _ _ _ _ hi', Bool.true_and]

/-- Witness for C2 at the spec's example: time signal `[100, 500, 900]` with
`min = 200`, `max = 800` and no charge cut gives the mask `[False, True, False]`. -/
theorem C2_witness :
    NodeSelection.get_mask ⟨some ⟨some 200, some 800⟩, none⟩
      ⟨some [100, 500, 900], none, some [0, 0, 0], none⟩ = .ok [false, true, false] := by
  rw [C2_threshold_mask_closed_interval ⟨some ⟨some 200, some 800⟩, none⟩
    ⟨some [100, 500, 900], none, some [0, 0, 0], none⟩ [100, 500, 900] [0, 0, 0] rfl rfl rfl]
  rfl

/-- The fold inside `get_combined_mask`, in closed form: with every predicate's
mask defined and of length `n`, the running conjunction from `acc` is the
pointwise AND of `acc` with all the masks. -/
theorem get_combined_mask_fold {α : Type} (getMask : α → EventGroup → Except String (List Bool))
    (g : EventGroup) (n : ℕ) (f : α → List Bool) (sels : List α)
    (hok : ∀ s ∈ sels, getMask s g = .ok (f s))
    (hlen : ∀ s ∈ sels, (f s).length = n) :
    ∀ acc : List Bool, acc.length = n →
      (sels.foldlM (fun acc sel => do
          let mask ← getMask sel g
          npAndInto acc mask) acc) =
        .ok ((List.range n).map fun i =>
          acc.getD i true && sels.all fun s => (f s).getD i true) := by
  induction sels with
  | nil =>
    intro acc ha
    simp only [List.foldlM_nil, List.all_nil, Bool.and_true]
    subst ha
    rw [rangeMap_getD acc true]
    rfl
  | cons s rest ih =>
    intro acc ha
    have hs : getMask s g = .ok (f s) := hok s (by simp)
    have hsl : (f s).length = n := hlen s (by simp)
    rw [List.foldlM_cons]
    simp only [hs, ok_bind]
    rw [npAndInto_spec _ _ (by rw [hsl, ha])]
    simp only [ok_bind]
    rw [ih (fun t htm => hok t (by simp [htm])) (fun t htm => hlen t (by simp [htm])) _
      (by simp [ha])]
    congr 1
    apply List.map_congr_left
    intro i hi
    have hi' : i < n := List.mem_range.mp hi
    rw [getD_rangeMap _ _ _ _ (by omega)]
    simp only [List.all_cons, Bool.and_assoc]

/-- C1: for every event and every non-empty predicate list,
`get_combined_mask(event, n_nodes)` is the elementwise logical AND of each
predicate's `get_mask` evaluated on the original (unfiltered) event group, and
the result is invariant under permutations of the predicate list. -/
theorem C1_combined_mask_is_elementwise_and {α : Type}
    (getMask : α → EventGroup → Except String (List Bool))
    (sels : List α) (g : EventGroup) (n : ℕ) (f : α → List Bool)
    (_hne : sels ≠ [])
    (hok : ∀ s ∈ sels, getMask s g = .ok (f s))
    (hlen : ∀ s ∈ sels, (f s).length = n) :
    get_combined_mask getMask sels g n =
      .ok ((List.range n).map fun i => sels.all fun s => (f s).getD i true) ∧
    ∀ sels2 : List α, sels2.Perm sels →
      get_combined_mask getMask sels2 g n = get_combined_mask getMask sels g n := by
  have main : ∀ l : List α, (∀ s ∈ l, getMask s g = .ok (f s)) →
      (∀ s ∈ l, (f s).length = n) →
      get_combined_mask getMask l g n =
        .ok ((List.range n).map fun i => l.all fun s => (f s).getD i true) := by
    intro l h1 h2
    rw [get_combined_mask, get_combined_mask_fold getMask g n f l h1 h2 _ (by simp)]
    congr 1
    apply List.map_congr_left
    intro i hi
    rw [getD_replicate_of_lt _ _ _ _ (List.mem_range.mp hi), Bool.true_and]
  refine ⟨main sels hok hlen, ?_⟩
  intro sels2 hp
  rw [main sels hok hlen,
    main sels2 (fun s hs => hok s (hp.mem_iff.mp hs)) (fun s hs => hlen s (hp.mem_iff.mp hs))]
  congr 1
  apply List.map_congr_left
  intro i _
  rw [Bool.eq_iff_iff, List.all_eq_true, List.all_eq_true]
  constructor
  · intro hh x hx
    exact hh x (hp.mem_iff.mpr hx)
  · intro hh x hx
    exact hh x (hp.mem_iff.mp hx)

/-- Witness for C1: two concrete threshold predicates over the same event; the
combined mask is the elementwise AND `[false, true, false]` of their masks
`[false, true, false]` and `[true, true, false]`. -/
theorem C1_witness :
    get_combined_mask NodeSelection.get_mask
      [⟨some ⟨some 200, some 800⟩, none⟩, ⟨none, some ⟨none, some 2⟩⟩]
      ⟨some [100, 500, 900], none, some [1, 2, 3], none⟩ 3 = .ok [false, true, false] := by
  have h := C1_combined_mask_is_elementwise_and NodeSelection.get_mask
      [⟨some ⟨some 200, some 800⟩, none⟩, ⟨none, some ⟨none, some 2⟩⟩]
      ⟨some [100, 500, 900], none, some [1, 2, 3], none⟩ 3
      (fun s => match s.time_cut with
        | some _ => [false, true, false]
        | none => [true, true, false])
      (by simp)
      (by
        intro s hs
        rcases List.mem_cons.mp hs with h1 | hs2
        · subst h1; rfl
        · rcases List.mem_cons.mp hs2 with h2 | h3
          · subst h2; rfl
          · simp at h3)
      (by
        intro s hs
        rcases List.mem_cons.mp hs with h1 | hs2
        · subst h1; rfl
        · rcases List.mem_cons.mp hs2 with h2 | h3
          · subst h2; rfl
          · simp at h3)
  exact h.1.trans (by rfl)

/-- C10: `SelectionCompose` with an empty predicate list yields the all-True
mask of length `n_nodes` from `get_combined_mask`, and applying the compose
leaves the coordinate array unfiltered. -/
theorem C10_empty_selection_list_all_true {α : Type}
    (getMask : α → EventGroup → Except String (List Bool)) (g : EventGroup) (n : ℕ)
    (coords : List (List ℚ)) :
    get_combined_mask getMask ([] : List α) g n = .ok (List.replicate n true) ∧
    composeCall getMask ([] : List α) coords g = .ok coords := by
  have h1 : ∀ m : ℕ, get_combined_mask getMask ([] : List α) g m =
      .ok (List.replicate m true) := fun m => rfl
  refine ⟨h1 n, ?_⟩
  rw [composeCall, h1 coords.length]
  simp only [ok_bind]
  rw [maskFilter_replicate_true]

/-! ### KNN-exact, graph_builders/knn_scipy.py -/

/-- Squared Euclidean distance between two coordinate rows. Ordering by it is
equivalent to ordering by the Euclidean distance scipy reports. -/
def sqDist (p q : List ℚ) : ℚ := (List.zipWith (fun a b => (a - b) * (a - b)) p q).sum

/-- Insertion sort on a boolean comparator. -/
def insertLe {α : Type} (le : α → α → Bool) (x : α) : List α → List α
  | [] => [x]
  | y :: ys => if le x y then x :: y :: ys else y :: insertLe le x ys

def sortLe {α : Type} (le : α → α → Bool) : List α → List α
  | [] => []
  | x :: xs => insertLe le x (sortLe le xs)

/-- Deterministic model of the cKDTree neighbour ordering seen from query
point `i`: candidates ordered by squared Euclidean distance with distance ties
broken by index (a deterministic refinement of scipy's unspecified tie
order). -/
def nbrLe (coords : List (List ℚ)) (i : ℕ) (j j' : ℕ) : Bool :=
  let d := sqDist (coords.getD i []) (coords.getD j [])
  let d' := sqDist (coords.getD i []) (coords.getD j' [])
  decide (d < d') || (decide (d = d') && decide (j ≤ j'))

/-- `tree.query(coords, k=k1)` index row for point `i`: the `k1` nearest
candidate indices (the queried point itself included as a candidate), padded
with scipy's documented missing-neighbour sentinel index `n` when fewer than
`k1` candidates exist. -/
def queryIndices (coords : List (List ℚ)) (i k1 : ℕ) : List ℕ :=
  ((sortLe (nbrLe coords i) (List.range coords.length)) ++
    List.replicate k1 coords.length).take k1

/-- `distances[:, k]` of `tree.query(coords, k=k+1)`: one entry per point. The
entry values (squared distance in place of distance, `0` in place of the inf
sentinel) are dead downstream - `max_radius` only feeds the unused
`query_pairs` result - but the column's emptiness at N = 0 is semantically
visible through `np.max` raising. -/
def queryDistCol (coords : List (List ℚ)) (k : ℕ) : List ℚ :=
  (List.range coords.length).map fun i =>
    sqDist (coords.getD i [])
      (coords.getD ((queryIndices coords i (k + 1)).getD k coords.length) [])

/-- Lexicographic order on index pairs, the column order `np.unique(.., axis=1)`
returns. -/
def knnPairLe (a b : ℕ × ℕ) : Bool :=
  decide (a.1 < b.1) || (decide (a.1 = b.1) && decide (a.2 ≤ b.2))

/-- `np.unique(full_edge_index, axis=1)`: the distinct columns in lexicographic
order. -/
def npUniquePairs (l : List (ℕ × ℕ)) : List (ℕ × ℕ) := sortLe knnPairLe l.dedup

/-- The directed edge index of knn_scipy.py lines 47-58: `indices[:, 1:]`
flattened against `np.repeat(np.arange(num_nodes), k)`. -/
def knnDirected (coords : List (List ℚ)) (k : ℕ) : List (ℕ × ℕ) :=
  ((List.range coords.length).map fun i =>
    ((queryIndices coords i (k + 1)).drop 1).map fun j => (i, j)).flatten

namespace knn_scipy

/-- graph_builders/knn_scipy.py `build_edges`: query the k+1 nearest neighbours
of every point, compute `max_radius` (np.max raises at N = 0; `query_pairs`
and its `edge_set` are dead code and omitted), drop the first queried column,
emit one directed edge per remaining neighbour, append every reverse edge and
deduplicate exact pairs. -/
def build_edges (coords : List (List ℚ)) (k : ℕ) : Except String (List (ℕ × ℕ)) :=
  npMax (queryDistCol coords k) >>= fun _max_radius =>
    .ok (npUniquePairs (knnDirected coords k ++
      (knnDirected coords k).map fun e => (e.2, e.1)))

end knn_scipy

/-! ### Delaunay, graph_builders/delaunay.py -/

/-- `tuple(sorted((i, j)))`: the canonical min/max ordering of one edge. -/
def sortPair (i j : ℕ) : ℕ × ℕ := if i ≤ j then (i, j) else (j, i)

/-- The six canonical edges of one tetrahedron `[p0, p1, p2, p3]`. -/
def simplexEdges (s : ℕ × ℕ × ℕ × ℕ) : List (ℕ × ℕ) :=
  [sortPair s.1 s.2.1, sortPair s.1 s.2.2.1, sortPair s.1 s.2.2.2,
   sortPair s.2.1 s.2.2.1, sortPair s.2.1 s.2.2.2, sortPair s.2.2.1 s.2.2.2]

/-- The Python `set` of canonical edges over all tetrahedra, modelled as a
first-occurrence-deduplicated list (membership-faithful; the source's set
iteration order is unspecified). -/
def edgeSetOf (simplices : List (ℕ × ℕ × ℕ × ℕ)) : List (ℕ × ℕ) :=
  ((simplices.map simplexEdges).flatten).dedup

namespace delaunay

/-- graph_builders/delaunay.py `build_edges`: fewer than 4 points
short-circuits to an empty edge index; a non-3-D input raises; a failure of
the external `scipy.spatial.Delaunay` triangulation (passed as the oracle
`tri`) is caught and softened to an empty edge index; otherwise the canonical
edges of all tetrahedra are deduplicated and both directions are emitted. -/
def build_edges (tri : List (List ℚ) → Except String (List (ℕ × ℕ × ℕ × ℕ)))
    (coords : List (List ℚ)) : Except String (List (ℕ × ℕ)) :=
  if coords.length < 4 then .ok []
  else if (coords.headD []).length ≠ 3 then
    .error "Delaunay 3D triangulation requires 3D coordinates"
  else
    match tri coords with
    | .error _ => .ok []
    | .ok simplices =>
      if edgeSetOf simplices = [] then .ok []
      else .ok (edgeSetOf simplices ++ (edgeSetOf simplices).map fun e => (e.2, e.1))

end delaunay

/-! ### Sorting and distance toolkit -/

theorem insertLe_perm {α : Type} (le : α → α → Bool) (x : α) (l : List α) :
    (insertLe le x l).Perm (x :: l) := by
  induction l with
  | nil => simp [insertLe]
  | cons y ys ih =>
    rw [insertLe]
    by_cases h : le x y = true
    · rw [if_pos h]
    · rw [if_neg h]
      exact (ih.cons y).trans (List.Perm.swap x y ys)

theorem sortLe_perm {α : Type} (le : α → α → Bool) (l : List α) :
    (sortLe le l).Perm l := by
  induction l with
  | nil => simp [sortLe]
  | cons x xs ih => exact (insertLe_perm le x (sortLe le xs)).trans (ih.cons x)

theorem mem_npUniquePairs (a : ℕ × ℕ) (l : List (ℕ × ℕ)) :
    a ∈ npUniquePairs l ↔ a ∈ l := by
  rw [npUniquePairs, (sortLe_perm knnPairLe l.dedup).mem_iff, List.mem_dedup]

theorem npUniquePairs_length_le (l : List (ℕ × ℕ)) :
    (npUniquePairs l).length ≤ l.length := by
  rw [npUniquePairs, (sortLe_perm knnPairLe l.dedup).length_eq]
  exact (List.dedup_sublist l).length_le

/-- If `x` is a strict minimum of the comparator on `l` (and the comparator is
reflexive at `x`), the insertion sort puts `x` first. -/
theorem sortLe_head_of_strict_min {α : Type} (le : α → α → Bool) (l : List α) (x : α)
    (hx : x ∈ l) (hrefl : le x x = true)
    (hstr : ∀ y ∈ l, y ≠ x → le x y = true ∧ le y x = false) :
    ∃ t, sortLe le l = x :: t := by
  induction l with
  | nil => cases hx
  | cons a l' ih =>
    by_cases hax : a = x
    · cases hm : sortLe le l' with
      | nil => exact ⟨[], by rw [sortLe, hm, hax]; rfl⟩
      | cons b t' =>
        have hb : b ∈ l' :=
          (sortLe_perm le l').mem_iff.mp (by rw [hm]; exact List.mem_cons_self _ _)
        by_cases hbx : b = x
        · exact ⟨b :: t', by rw [sortLe, hm, hax, insertLe, if_pos (by rw [hbx]; exact hrefl)]⟩
        · have hle : le x b = true := (hstr b (List.mem_cons_of_mem _ hb) hbx).1
          exact ⟨b :: t', by rw [sortLe, hm, hax, insertLe, if_pos hle]⟩
    · have hx' : x ∈ l' := by
        rcases List.mem_cons.mp hx with h | h
        · exact absurd h.symm hax
        · exact h
      obtain ⟨t, ht⟩ :=
        ih hx' (fun y hy hyx => hstr y (List.mem_cons_of_mem _ hy) hyx)
      have hlax : le a x = false := (hstr a (List.mem_cons_self _ _) hax).2
      exact ⟨insertLe le a t, by rw [sortLe, ht, insertLe, if_neg (by simp [hlax])]⟩

theorem sqDist_self (p : List ℚ) : sqDist p p = 0 := by
  induction p with
  | nil => rfl
  | cons a p' ih =>
    rw [sqDist] at ih ⊢
    simp only [List.zipWith_cons_cons, List.sum_cons, ih, sub_self, mul_zero, add_zero]

theorem sqDist_nonneg (p q : List ℚ) : 0 ≤ sqDist p q := by
  induction p generalizing q with
  | nil => rw [sqDist]; simp
  | cons a p' ih =>
    cases q with
    | nil => rw [sqDist]; simp
    | cons b q' =>
      rw [sqDist, List.zipWith_cons_cons, List.sum_cons]
      have h1 := ih q'
      rw [sqDist] at h1
      have h2 : 0 ≤ (a - b) * (a - b) := mul_self_nonneg _
      linarith

theorem sqDist_pos_of_ne (p q : List ℚ) (hlen : p.length = q.length) (hne : p ≠ q) :
    0 < sqDist p q := by
  induction p generalizing q with
  | nil =>
    cases q with
    | nil => exact absurd rfl hne
    | cons b q' => simp at hlen
  | cons a p' ih =>
    cases q with
    | nil => simp at hlen
    | cons b q' =>
      rw [sqDist, List.zipWith_cons_cons, List.sum_cons]
      by_cases hab : a = b
      · subst hab
        have hne' : p' ≠ q' := fun h => hne (by rw [h])
        have hpos := ih q' (by simpa using hlen) hne'
        rw [sqDist] at hpos
        simp only [sub_self, zero_mul, zero_add]
        exact hpos
      · have h1 : 0 < (a - b) * (a - b) := mul_self_pos.mpr (sub_ne_zero.mpr hab)
        have h2 := sqDist_nonneg p' q'
        rw [sqDist] at h2
        linarith

theorem queryIndices_length (coords : List (List ℚ)) (i k1 : ℕ) :
    (queryIndices coords i k1).length = k1 := by
  rw [queryIndices, List.length_take, List.length_append, (sortLe_perm _ _).length_eq,
    List.length_range, List.length_replicate]
  omega

/-- Every queried index is at most the sentinel `n`. -/
theorem mem_queryIndices_le (coords : List (List ℚ)) (i k1 j : ℕ)
    (hj : j ∈ queryIndices coords i k1) : j ≤ coords.length := by
  rw [queryIndices] at hj
  rcases List.mem_append.mp (List.mem_of_mem_take hj) with h | h
  · exact le_of_lt (List.mem_range.mp ((sortLe_perm _ _).mem_iff.mp h))
  · rw [List.eq_of_mem_replicate h]

/-- With enough points (`k1 ≤ n`) the sentinel is never reached: every queried
index is a real point index. -/
theorem mem_queryIndices_lt (coords : List (List ℚ)) (i k1 j : ℕ)
    (hk : k1 ≤ coords.length) (hj : j ∈ queryIndices coords i k1) :
    j < coords.length := by
  rw [queryIndices,
    List.take_append_of_le_length
      (by rw [(sortLe_perm _ _).length_eq, List.length_range]; exact hk)] at hj
  exact List.mem_range.mp ((sortLe_perm _ _).mem_iff.mp (List.mem_of_mem_take hj))

theorem mem_knnDirected (coords : List (List ℚ)) (k : ℕ) (e : ℕ × ℕ) :
    e ∈ knnDirected coords k ↔
      e.1 < coords.length ∧ e.2 ∈ (queryIndices coords e.1 (k + 1)).drop 1 := by
  rw [knnDirected, List.mem_flatten]
  constructor
  · rintro ⟨inner, hin, he⟩
    rcases List.mem_map.mp hin with ⟨i, hi, rfl⟩
    rcases List.mem_map.mp he with ⟨j, hj, rfl⟩
    exact ⟨List.mem_range.mp hi, hj⟩
  · rintro ⟨h1, h2⟩
    refine ⟨((queryIndices coords e.1 (k + 1)).drop 1).map fun j => (e.1, j),
      List.mem_map_of_mem _ (List.mem_range.mpr h1), ?_⟩
    have := List.mem_map_of_mem (fun j => (e.1, j)) h2
    simpa using this

theorem knnDirected_length (coords : List (List ℚ)) (k : ℕ) :
    (knnDirected coords k).length = coords.length * k := by
  rw [knnDirected, List.length_flatten, List.map_map]
  have h : (List.range coords.length).map
      (List.length ∘ fun i => ((queryIndices coords i (k + 1)).drop 1).map fun j => (i, j)) =
      List.replicate coords.length k := by
    apply List.ext_getElem (by simp)
    intro j h1 h2
    simp only [List.getElem_map, List.getElem_range, List.getElem_replicate,
      Function.comp_apply, List.length_map, List.length_drop, queryIndices_length]
    omega
  rw [h, List.sum_replicate, smul_eq_mul]

/-- The point itself strictly precedes every other point in its own neighbour
order, provided the rows are rectangular and pairwise distinct. -/
theorem nbrLe_strict_min (coords : List (List ℚ)) (d : ℕ)
    (hrect : ∀ p ∈ coords, p.length = d) (hdist : coords.Pairwise (· ≠ ·))
    (i j : ℕ) (hi : i < coords.length) (hj : j < coords.length) (hji : j ≠ i) :
    nbrLe coords i i j = true ∧ nbrLe coords i j i = false := by
  have hgi : coords.getD i [] = coords[i] := List.getD_eq_getElem coords [] hi
  have hgj : coords.getD j [] = coords[j] := List.getD_eq_getElem coords [] hj
  have hmemi : coords[i] ∈ coords := List.getElem_mem hi
  have hmemj : coords[j] ∈ coords := List.getElem_mem hj
  have hlen : (coords[i]).length = (coords[j]).length := by
    rw [hrect _ hmemi, hrect _ hmemj]
  have hne : (coords[i]) ≠ (coords[j]) := by
    rcases Nat.lt_or_ge i j with hij | hij
    · exact (List.pairwise_iff_getElem.mp hdist i j hi hj hij)
    · have hlt : j < i := lt_of_le_of_ne hij hji
      exact (List.pairwise_iff_getElem.mp hdist j i hj hi hlt).symm
  have hpos : 0 < sqDist (coords.getD i []) (coords.getD j []) := by
    rw [hgi, hgj]
    exact sqDist_pos_of_ne _ _ hlen hne
  have hself : sqDist (coords.getD i []) (coords.getD i []) = 0 := sqDist_self _
  constructor
  · rw [nbrLe]
    simp only [hself]
    rw [Bool.or_eq_true, decide_eq_true_iff]
    exact Or.inl hpos
  · rw [nbrLe]
    simp only [hself]
    rw [Bool.or_eq_false_iff]
    constructor
    · rw [decide_eq_false_iff_not]
      exact not_lt.mpr (le_of_lt hpos)
    · rw [Bool.and_eq_false_iff]
      left
      rw [decide_eq_false_iff_not]
      exact ne_of_gt hpos

theorem nbrLe_refl (coords : List (List ℚ)) (i j : ℕ) : nbrLe coords i j j = true := by
  rw [nbrLe]
  simp

/-- The self-exclusion of knn_scipy.py (dropping column 0 of `indices`) is
sound when the coordinate rows are rectangular and pairwise distinct: the
point itself is the unique head of its neighbour order and so never appears
among its own k nearest neighbours. -/
theorem self_not_mem_nbrs (coords : List (List ℚ)) (d : ℕ)
    (hrect : ∀ p ∈ coords, p.length = d) (hdist : coords.Pairwise (· ≠ ·))
    (i k : ℕ) (hi : i < coords.length) :
    i ∉ (queryIndices coords i (k + 1)).drop 1 := by
  intro hmem
  obtain ⟨t, ht⟩ := sortLe_head_of_strict_min (nbrLe coords i)
    (List.range coords.length) i (List.mem_range.mpr hi) (nbrLe_refl coords i i)
    (fun j hj hji => nbrLe_strict_min coords d hrect hdist i j hi (List.mem_range.mp hj) hji)
  rw [queryIndices, ht] at hmem
  rw [List.drop_take (k + 1) 1] at hmem
  have hmem2 : i ∈ (i :: t ++ List.replicate (k + 1) coords.length).drop 1 :=
    List.mem_of_mem_take hmem
  rw [List.cons_append, List.drop_succ_cons, List.drop_zero] at hmem2
  rcases List.mem_append.mp hmem2 with h | h
  · have hnodup : (sortLe (nbrLe coords i) (List.range coords.length)).Nodup :=
      (sortLe_perm _ _).nodup_iff.mpr (List.nodup_range _)
    rw [ht] at hnodup
    exact (List.nodup_cons.mp hnodup).1 h
  · rw [List.eq_of_mem_replicate h] at hi
    exact lt_irrefl _ hi

/-- `knn_scipy.build_edges` on a nonempty point set: `np.max` succeeds and the
result is the deduplicated symmetrized directed edge list. -/
theorem knn_build_edges_eq_of_ne_nil (coords : List (List ℚ)) (k : ℕ)
    (h : coords ≠ []) :
    knn_scipy.build_edges coords k =
      .ok (npUniquePairs (knnDirected coords k ++
        (knnDirected coords k).map fun e => (e.2, e.1))) := by
  rw [knn_scipy.build_edges]
  cases hq : queryDistCol coords k with
  | nil =>
    exfalso
    have : (queryDistCol coords k).length = coords.length := by
      rw [queryDistCol, List.length_map, List.length_range]
    rw [hq] at this
    exact h (List.length_eq_zero.mp this.symm)
  | cons x xs => rw [npMax, ok_bind]

theorem knn_build_edges_ok_inv (coords : List (List ℚ)) (k : ℕ) (l : List (ℕ × ℕ))
    (h : knn_scipy.build_edges coords k = .ok l) :
    l = npUniquePairs (knnDirected coords k ++
      (knnDirected coords k).map fun e => (e.2, e.1)) := by
  by_cases hc : coords = []
  · subst hc
    rw [show knn_scipy.build_edges [] k =
      .error "zero-size array to reduction operation maximum which has no identity" from rfl] at h
    cases h
  · rw [knn_build_edges_eq_of_ne_nil coords k hc] at h
    exact (Except.ok.inj h).symm

/-- C6: Delaunay `build_edges` on fewer than 4 points returns the empty edge
index without raising, and on an input whose rows are 3-dimensional it catches
any failure of the underlying triangulation and returns the empty edge index
instead of propagating it. -/
theorem C6_delaunay_failure_softened_to_empty
    (tri : List (List ℚ) → Except String (List (ℕ × ℕ × ℕ × ℕ)))
    (coords : List (List ℚ)) :
    (coords.length < 4 → delaunay.build_edges tri coords = .ok []) ∧
    (∀ e : String, (coords.headD []).length = 3 → tri coords = .error e →
      delaunay.build_edges tri coords = .ok []) := by
  constructor
  · intro h
    rw [delaunay.build_edges, if_pos h]
  · intro e hdim htri
    rw [delaunay.build_edges]
    by_cases hlt : coords.length < 4
    · rw [if_pos hlt]
    · rw [if_neg hlt, if_neg (by rw [hdim]; exact fun h => h rfl), htri]

/-- Witness for C6: three coplanar points yield the empty edge index without
consulting the triangulation, and four points on which the (oracle-modelled)
triangulation raises a Qhull error also yield the empty edge index. -/
theorem C6_witness :
    delaunay.build_edges (fun _ => .error "QhullError: coplanar input")
      [[0, 0, 0], [1, 0, 0], [0, 1, 0]] = .ok [] ∧
    delaunay.build_edges (fun _ => .error "QhullError: coplanar input")
      [[0, 0, 0], [1, 0, 0], [0, 1, 0], [1, 1, 0]] = .ok [] :=
  ⟨(C6_delaunay_failure_softened_to_empty _ _).1 (by decide),
   (C6_delaunay_failure_softened_to_empty _ _).2 "QhullError: coplanar input" rfl rfl⟩

/-- C4 (evidence of the code bug): at N = 0 the KNN-exact constructor does not
return an empty edge index - `np.max` over the empty `distances[:, k]` column
raises - while the Delaunay constructor at the same input does return the
empty edge index the family contract demands. -/
theorem C4_knn_raises_at_zero_nodes :
    knn_scipy.build_edges [] 1 =
      .error "zero-size array to reduction operation maximum which has no identity" ∧
    delaunay.build_edges (fun _ => .error "QhullError: coplanar input") [] = .ok [] :=
  ⟨rfl, rfl⟩

theorem mem_edgeSetOf (simplices : List (ℕ × ℕ × ℕ × ℕ)) (e : ℕ × ℕ)
    (h : e ∈ edgeSetOf simplices) : ∃ s ∈ simplices, e ∈ simplexEdges s := by
  rw [edgeSetOf, List.mem_dedup] at h
  rcases List.mem_flatten.mp h with ⟨inner, hin, he⟩
  rcases List.mem_map.mp hin with ⟨s, hs, rfl⟩
  exact ⟨s, hs, he⟩

theorem sortPair_bound (a b n : ℕ) (ha : a < n) (hb : b < n) :
    (sortPair a b).1 < n ∧ (sortPair a b).2 < n := by
  rw [sortPair]
  split
  · exact ⟨ha, hb⟩
  · exact ⟨hb, ha⟩

theorem simplexEdges_bound (s : ℕ × ℕ × ℕ × ℕ) (n : ℕ)
    (hs : s.1 < n ∧ s.2.1 < n ∧ s.2.2.1 < n ∧ s.2.2.2 < n)
    (e : ℕ × ℕ) (he : e ∈ simplexEdges s) : e.1 < n ∧ e.2 < n := by
  obtain ⟨h0, h1, h2, h3⟩ := hs
  simp only [simplexEdges, List.mem_cons, List.not_mem_nil, or_false] at he
  rcases he with rfl | rfl | rfl | rfl | rfl | rfl
  · exact sortPair_bound _ _ _ h0 h1
  · exact sortPair_bound _ _ _ h0 h2
  · exact sortPair_bound _ _ _ h0 h3
  · exact sortPair_bound _ _ _ h1 h2
  · exact sortPair_bound _ _ _ h1 h3
  · exact sortPair_bound _ _ _ h2 h3

/-- C5 counterexample: at N = 1, k = 1 (an accepted call), scipy's query pads
the missing neighbour with the sentinel index n = 1, which enters the returned
edge index: endpoint 1 is not an index of the filtered node set [0, 1). -/
theorem C5_counterexample :
    knn_scipy.build_edges [[0, 0]] 1 = .ok [(0, 1), (1, 0)] ∧
    ¬ (1 < 1) := by
  constructor
  · with_unfolding_all rfl
  · decide

/-- C5 (amended): KNN-exact endpoints lie in [0, N) provided k < N (with k ≥ N
the scipy sentinel index N enters the edge list); Delaunay endpoints lie in
[0, N) whenever the triangulation's simplices do. -/
theorem C5_amended_endpoints_in_range :
    (∀ (coords : List (List ℚ)) (k : ℕ) (l : List (ℕ × ℕ)),
      k < coords.length → knn_scipy.build_edges coords k = .ok l →
      ∀ e ∈ l, e.1 < coords.length ∧ e.2 < coords.length) ∧
    (∀ (tri : List (List ℚ) → Except String (List (ℕ × ℕ × ℕ × ℕ)))
      (coords : List (List ℚ)) (simplices : List (ℕ × ℕ × ℕ × ℕ)) (l : List (ℕ × ℕ)),
      tri coords = .ok simplices →
      (∀ s ∈ simplices, s.1 < coords.length ∧ s.2.1 < coords.length ∧
        s.2.2.1 < coords.length ∧ s.2.2.2 < coords.length) →
      delaunay.build_edges tri coords = .ok l →
      ∀ e ∈ l, e.1 < coords.length ∧ e.2 < coords.length) := by
  constructor
  · intro coords k l hk h e he
    rw [knn_build_edges_ok_inv coords k l h, mem_npUniquePairs] at he
    have hdir : ∀ f : ℕ × ℕ, f ∈ knnDirected coords k →
        f.1 < coords.length ∧ f.2 < coords.length := by
      intro f hf
      rw [mem_knnDirected] at hf
      exact ⟨hf.1, mem_queryIndices_lt coords f.1 (k + 1) f.2 hk
        (List.mem_of_mem_drop hf.2)⟩
    rcases List.mem_append.mp he with h1 | h1
    · exact hdir e h1
    · rcases List.mem_map.mp h1 with ⟨f, hf, rfl⟩
      exact ⟨(hdir f hf).2, (hdir f hf).1⟩
  · intro tri coords simplices l htri hsimp hb e he
    rw [delaunay.build_edges] at hb
    by_cases h4 : coords.length < 4
    · rw [if_pos h4] at hb
      rw [← Except.ok.inj hb] at he
      cases he
    · rw [if_neg h4] at hb
      by_cases hdim : (coords.headD []).length ≠ 3
      · rw [if_pos hdim] at hb
        cases hb
      · rw [if_neg hdim, htri] at hb
        change (if edgeSetOf simplices = [] then Except.ok ([] : List (ℕ × ℕ))
          else Except.ok (edgeSetOf simplices ++
            (edgeSetOf simplices).map fun e => (e.2, e.1))) = Except.ok l at hb
        have hes : ∀ f : ℕ × ℕ, f ∈ edgeSetOf simplices →
            f.1 < coords.length ∧ f.2 < coords.length := by
          intro f hf
          obtain ⟨s, hs, hfe⟩ := mem_edgeSetOf simplices f hf
          exact simplexEdges_bound s coords.length (hsimp s hs) f hfe
        by_cases he0 : edgeSetOf simplices = []
        · rw [if_pos he0] at hb
          rw [← Except.ok.inj hb] at he
          cases he
        · rw [if_neg he0] at hb
          rw [← Except.ok.inj hb] at he
          rcases List.mem_append.mp he with h1 | h1
          · exact hes e h1
          · rcases List.mem_map.mp h1 with ⟨f, hf, rfl⟩
            exact ⟨(hes f hf).2, (hes f hf).1⟩

/-- Witness for C5: KNN-exact on three distinct 1-D points with k = 1 < 3 and
the edge (0, 1) of its output; Delaunay on four points whose single
tetrahedron is [0, 1, 2, 3] and the edge (0, 1) of its output. -/
theorem C5_witness :
    knn_scipy.build_edges [[0], [1], [5]] 1 = .ok [(0, 1), (1, 0), (1, 2), (2, 1)] ∧
    (0 < 3 ∧ 1 < 3) ∧
    delaunay.build_edges (fun _ => .ok [(0, 1, 2, 3)])
      [[0, 0, 0], [1, 0, 0], [0, 1, 0], [0, 0, 1]] =
      .ok [(0, 1), (0, 2), (0, 3), (1, 2), (1, 3), (2, 3),
        (1, 0), (2, 0), (3, 0), (2, 1), (3, 1), (3, 2)] ∧
    (0 < 4 ∧ 1 < 4) :=
  ⟨by with_unfolding_all rfl,
   C5_amended_endpoints_in_range.1 [[0], [1], [5]] 1 [(0, 1), (1, 0), (1, 2), (2, 1)]
     (by decide) (by with_unfolding_all rfl) (0, 1) (by decide),
   by with_unfolding_all rfl,
   C5_amended_endpoints_in_range.2 (fun _ => .ok [(0, 1, 2, 3)])
     [[0, 0, 0], [1, 0, 0], [0, 1, 0], [0, 0, 1]] [(0, 1, 2, 3)]
     [(0, 1), (0, 2), (0, 3), (1, 2), (1, 3), (2, 3),
       (1, 0), (2, 0), (3, 0), (2, 1), (3, 1), (3, 2)]
     rfl (by decide) (by with_unfolding_all rfl) (0, 1) (by decide)⟩

/-- C7 counterexample: on two identical points with k = 1 the self-exclusion
(dropping the first queried column) drops a duplicate instead of the point
itself, and the self-loop (1, 1) appears in the returned edge index. -/
theorem C7_counterexample :
    knn_scipy.build_edges [[0], [0]] 1 = .ok [(0, 1), (1, 0), (1, 1)] ∧
    (1, 1) ∈ [((0 : ℕ), (1 : ℕ)), (1, 0), (1, 1)] := by
  constructor
  · with_unfolding_all rfl
  · decide

/-- C7 (amended): on every input on which KNN-exact returns, the edge index is
symmetric (contains (j, i) whenever it contains (i, j)) and has at most 2·N·k
directed edges after deduplication; it is additionally self-loop-free whenever
the coordinate rows are rectangular and pairwise distinct. -/
theorem C7_amended_knn_symmetric_bounded (coords : List (List ℚ)) (k : ℕ)
    (l : List (ℕ × ℕ)) (h : knn_scipy.build_edges coords k = .ok l) :
    (∀ i j : ℕ, (i, j) ∈ l → (j, i) ∈ l) ∧
    l.length ≤ 2 * coords.length * k ∧
    (∀ d : ℕ, (∀ p ∈ coords, p.length = d) → coords.Pairwise (· ≠ ·) →
      ∀ i : ℕ, (i, i) ∉ l) := by
  have hl := knn_build_edges_ok_inv coords k l h
  subst hl
  refine ⟨?_, ?_, ?_⟩
  · intro i j hij
    rw [mem_npUniquePairs] at hij ⊢
    rcases List.mem_append.mp hij with h1 | h1
    · exact List.mem_append.mpr (Or.inr (List.mem_map.mpr ⟨(i, j), h1, rfl⟩))
    · rcases List.mem_map.mp h1 with ⟨e, he, heq⟩
      obtain ⟨a, b⟩ := e
      simp only [Prod.mk.injEq] at heq
      obtain ⟨hb, ha⟩ := heq
      subst hb
      subst ha
      exact List.mem_append.mpr (Or.inl he)
  · have h1 := npUniquePairs_length_le (knnDirected coords k ++
      (knnDirected coords k).map fun e => (e.2, e.1))
    rw [List.length_append, List.length_map, knnDirected_length] at h1
    have h2 : 2 * coords.length * k = coords.length * k + coords.length * k := by ring
    rw [h2]
    exact h1
  · intro d hrect hdist i hmem
    rw [mem_npUniquePairs] at hmem
    have hdir : (i, i) ∈ knnDirected coords k := by
      rcases List.mem_append.mp hmem with h1 | h1
      · exact h1
      · rcases List.mem_map.mp h1 with ⟨e, he, heq⟩
        obtain ⟨a, b⟩ := e
        simp only [Prod.mk.injEq] at heq
        obtain ⟨hb, ha⟩ := heq
        subst hb
        subst ha
        exact he
    rw [mem_knnDirected] at hdir
    exact self_not_mem_nbrs coords d hrect hdist i k hdir.1 hdir.2

/-- Witness for C7: the output on three distinct 1-D points with k = 1
contains the reverse (1, 0) of its edge (0, 1), has at most 2·3·1 edges, and
does not contain the self-loop (0, 0). -/
theorem C7_witness :
    (1, 0) ∈ [((0 : ℕ), (1 : ℕ)), (1, 0), (1, 2), (2, 1)] ∧
    ([((0 : ℕ), (1 : ℕ)), (1, 0), (1, 2), (2, 1)]).length ≤ 2 * 3 * 1 ∧
    (0, 0) ∉ [((0 : ℕ), (1 : ℕ)), (1, 0), (1, 2), (2, 1)] := by
  have h := C7_amended_knn_symmetric_bounded [[0], [1], [5]] 1
    [(0, 1), (1, 0), (1, 2), (2, 1)] (by with_unfolding_all rfl)
  exact ⟨h.1 0 1 (by decide), h.2.1, h.2.2 1 (by decide) (by decide) 0⟩

/-! ### PercentileTimeSelection, utils/node_selection.py lines 77-171

The scipy numerics (np.histogram, np.median, np.std, curve_fit, moyal.rvs,
np.percentile) are external capabilities; they enter as an oracle record.
`curve_fit` is the one fallible step (non-convergence raises); the remaining
oracle fields are modelled as total functions. -/

structure ScipyStats where
  histogram : List ℚ → ℕ → List ℚ × List ℚ
  median : List ℚ → ℚ
  std : List ℚ → ℚ
  curve_fit : List ℚ → List ℚ → ℚ × ℚ × ℚ → Except String (ℚ × ℚ × ℚ)
  rvs : ℚ → ℚ → ℕ → List ℚ
  percentile : List ℚ → ℚ → ℚ

structure PercentileTimeSelection where
  lower_percentile : ℚ
  upper_percentile : ℚ
  use_landau_fit : Bool

/-- `(bins[:-1] + bins[1:]) / 2`. -/
def binCenters (bins : List ℚ) : List ℚ :=
  List.zipWith (fun a b => (a + b) / 2) bins.dropLast bins.tail

/-- The body of the `try` block of `compute_percentile_cuts`: 100-bin
histogram, initial guess [max count, median, std], Landau `curve_fit`,
10 000 samples from the fitted distribution, and their two percentiles. -/
def landauFitBlock (O : ScipyStats) (sel : PercentileTimeSelection) (time : List ℚ) :
    Except String (Option ℚ × Option ℚ) := do
  let counts := (O.histogram time 100).1
  let cmax ← npMax counts
  let params ← O.curve_fit (binCenters (O.histogram time 100).2) counts
    (cmax, O.median time, O.std time)
  let fitted_samples := O.rvs params.2.1 params.2.2 10000
  .ok (some (O.percentile fitted_samples sel.lower_percentile),
    some (O.percentile fitted_samples sel.upper_percentile))

/-- `compute_percentile_cuts`: raw percentiles when the Landau fit is disabled;
otherwise the `try` block, whose failure is re-raised as
`ValueError("Landau fit failed (..)")` - the commented-out fallback to raw
percentiles is dead code and does not appear. -/
def PercentileTimeSelection.compute_percentile_cuts (sel : PercentileTimeSelection)
    (O : ScipyStats) (time : List ℚ) : Except String (Option ℚ × Option ℚ) :=
  if !sel.use_landau_fit then
    .ok (some (O.percentile time sel.lower_percentile),
      some (O.percentile time sel.upper_percentile))
  else
    match landauFitBlock O sel time with
    | .ok r => .ok r
    | .error e => .error ("Landau fit failed (" ++ e ++ ")")

/-- `PercentileTimeSelection.get_mask`: extract the time signal, compute the
cuts, keep everything when a cut is `None` (unreachable on both live paths),
otherwise mask to the closed interval. -/
def PercentileTimeSelection.get_mask (sel : PercentileTimeSelection) (O : ScipyStats)
    (g : EventGroup) : Except String (List Bool) := do
  let time ← g.timeArr
  let cuts ← sel.compute_percentile_cuts O time
  match cuts with
  | (some tmin, some tmax) =>
    .ok (time.map fun t => decide (tmin ≤ t) && decide (t ≤ tmax))
  | _ => .ok (List.replicate time.length true)

/-- C3: with `use_landau_fit = True` and a non-empty time signal, `get_mask`
raises iff the non-linear least-squares Landau fit of the 100-bin histogram
fails (the failure is never downgraded to raw-data percentiles), and on fit
success the mask is built from the two percentiles of the 10 000 samples
drawn from the fitted distribution. -/
theorem C3_landau_fit_failure_is_hard_error (sel : PercentileTimeSelection)
    (O : ScipyStats) (g : EventGroup) (ts : List ℚ) (cmax : ℚ)
    (ht : g.timeArr = .ok ts) (_hne : ts ≠ [])
    (hmax : npMax (O.histogram ts 100).1 = .ok cmax)
    (hfit : sel.use_landau_fit = true) :
    ((∃ e, sel.get_mask O g = .error e) ↔
      (∃ e, O.curve_fit (binCenters (O.histogram ts 100).2) (O.histogram ts 100).1
        (cmax, O.median ts, O.std ts) = .error e)) ∧
    (∀ a loc scale : ℚ,
      O.curve_fit (binCenters (O.histogram ts 100).2) (O.histogram ts 100).1
        (cmax, O.median ts, O.std ts) = .ok (a, loc, scale) →
      sel.get_mask O g = .ok (ts.map fun t =>
        decide (O.percentile (O.rvs loc scale 10000) sel.lower_percentile ≤ t) &&
        decide (t ≤ O.percentile (O.rvs loc scale 10000) sel.upper_percentile))) := by
  have herr : ∀ e : String,
      O.curve_fit (binCenters (O.histogram ts 100).2) (O.histogram ts 100).1
        (cmax, O.median ts, O.std ts) = .error e →
      sel.get_mask O g = .error ("Landau fit failed (" ++ e ++ ")") := by
    intro e hres
    have hl : landauFitBlock O sel ts = .error e := by
      rw [landauFitBlock, hmax, ok_bind, hres]
      rfl
    simp only [PercentileTimeSelection.get_mask, ht, ok_bind,
      PercentileTimeSelection.compute_percentile_cuts, hfit, Bool.not_true,
      Bool.false_eq_true, if_false, hl, error_bind]
  have hok2 : ∀ params : ℚ × ℚ × ℚ,
      O.curve_fit (binCenters (O.histogram ts 100).2) (O.histogram ts 100).1
        (cmax, O.median ts, O.std ts) = .ok params →
      sel.get_mask O g = .ok (ts.map fun t =>
        decide (O.percentile (O.rvs params.2.1 params.2.2 10000) sel.lower_percentile ≤ t) &&
        decide (t ≤ O.percentile (O.rvs params.2.1 params.2.2 10000)
          sel.upper_percentile)) := by
    intro params hres
    have hl : landauFitBlock O sel ts =
        .ok (some (O.percentile (O.rvs params.2.1 params.2.2 10000) sel.lower_percentile),
          some (O.percentile (O.rvs params.2.1 params.2.2 10000) sel.upper_percentile)) := by
      rw [landauFitBlock, hmax, ok_bind, hres]
      rfl
    simp only [PercentileTimeSelection.get_mask, ht, ok_bind,
      PercentileTimeSelection.compute_percentile_cuts, hfit, Bool.not_true,
      Bool.false_eq_true, if_false, hl]
  constructor
  · constructor
    · rintro ⟨e, he⟩
      cases hcf : O.curve_fit (binCenters (O.histogram ts 100).2) (O.histogram ts 100).1
          (cmax, O.median ts, O.std ts) with
      | error e2 => exact ⟨e2, rfl⟩
      | ok params =>
        rw [hok2 params hcf] at he
        cases he
    · rintro ⟨e, he⟩
      exact ⟨"Landau fit failed (" ++ e ++ ")", herr e he⟩
  · intro a loc scale hcf
    exact hok2 (a, loc, scale) hcf

/-- Concrete scipy oracle for the C3 witness: the fit always converges to
(1, 2, 3), sampling returns [loc, scale], and a percentile is the first
sample. -/
def percOracle0 : ScipyStats where
  histogram := fun _ _ => ([1], [0, 1])
  median := fun _ => 0
  std := fun _ => 1
  curve_fit := fun _ _ _ => .ok (1, 2, 3)
  rvs := fun loc scale _ => [loc, scale]
  percentile := fun samples _ => samples.headD 0

/-- Witness for C3: with the concrete converging oracle, times [1, 2] and both
cuts landing on 2, the mask is [False, True]. -/
theorem C3_witness :
    PercentileTimeSelection.get_mask ⟨5, 90, true⟩ percOracle0
      ⟨some [1, 2], none, none, none⟩ = .ok [false, true] := by
  have h := C3_landau_fit_failure_is_hard_error ⟨5, 90, true⟩ percOracle0
    ⟨some [1, 2], none, none, none⟩ [1, 2] 1 rfl (by decide) rfl rfl
  rw [h.2 1 2 3 rfl]
  decide

/-! ### Spacetime metric, metrics/spacetime.py

`SPEED_OF_LIGHT`, `N_PURE_WATER` and `WCSIM_TRIGGER_TIME_OFFSET` come from
utils/physical_values.py, which is not part of the tree; they enter as
parameters (the claims hold for every value). `StandardScaler` is the sklearn
oracle. The source copies its input (`coords.copy()`) and writes the scaled
time only into the copy; the embedding returns, next to the [N,3] result, the
input buffer as the caller sees it after the call. -/

structure NpMat where
  rows : List (List ℚ)
  ncols : ℕ

/-- `coords_copy` after the in-place time rescale of spacetime.py line 30. -/
def spacetimeCopy (SPEED_OF_LIGHT N_PURE_WATER WCSIM_TRIGGER_TIME_OFFSET : ℚ)
    (rows : List (List ℚ)) : List (List ℚ) :=
  rows.map fun r =>
    [r.getD 0 0, r.getD 1 0, r.getD 2 0,
      (r.getD 3 0 - WCSIM_TRIGGER_TIME_OFFSET) *
        (SPEED_OF_LIGHT * (100 / 1000000000) / N_PURE_WATER)]

/-- metrics/spacetime.py `process_coords_spacetime`. -/
def process_coords_spacetime (SPEED_OF_LIGHT N_PURE_WATER WCSIM_TRIGGER_TIME_OFFSET : ℚ)
    (stdScaler : List (List ℚ) → List (List ℚ)) (m : NpMat)
    (use_std_scaler : Bool) (spatial_weight temporal_weight : ℚ) :
    Except String (List (List ℚ) × NpMat) :=
  if m.ncols ≠ 4 then .error "Spacetime metric requires 4D coordinates (x, y, z, t)"
  else
    .ok
      (((if use_std_scaler then
          stdScaler
            (spacetimeCopy SPEED_OF_LIGHT N_PURE_WATER WCSIM_TRIGGER_TIME_OFFSET m.rows)
        else
          spacetimeCopy SPEED_OF_LIGHT N_PURE_WATER WCSIM_TRIGGER_TIME_OFFSET m.rows).map
        (fun r =>
          [spatial_weight * r.getD 0 0 + temporal_weight * r.getD 3 0,
           spatial_weight * r.getD 1 0 + temporal_weight * r.getD 3 0,
           spatial_weight * r.getD 2 0 + temporal_weight * r.getD 3 0])),
       m)

/-- C8: `process_coords_spacetime` raises iff the input dimension is not 4; on
an [N, 4] input without standardization it returns
spatial_weight·(x, y, z) + temporal_weight·(scaled t broadcast across the
three spatial dimensions), with scaled t = (t − trigger-time offset) · (speed
of light, unit-converted and scaled by the inverse refractive index); and the
input array buffer is returned to the caller unmodified. -/
theorem C8_spacetime_four_dims_and_formula
    (SPEED_OF_LIGHT N_PURE_WATER WCSIM_TRIGGER_TIME_OFFSET : ℚ)
    (stdScaler : List (List ℚ) → List (List ℚ)) (m : NpMat)
    (use_std_scaler : Bool) (sw tw : ℚ) :
    ((∃ e, process_coords_spacetime SPEED_OF_LIGHT N_PURE_WATER WCSIM_TRIGGER_TIME_OFFSET
      stdScaler m use_std_scaler sw tw = .error e) ↔ m.ncols ≠ 4) ∧
    (m.ncols = 4 → use_std_scaler = false →
      process_coords_spacetime SPEED_OF_LIGHT N_PURE_WATER WCSIM_TRIGGER_TIME_OFFSET
        stdScaler m use_std_scaler sw tw =
      .ok (m.rows.map fun r =>
        [sw * r.getD 0 0 + tw * ((r.getD 3 0 - WCSIM_TRIGGER_TIME_OFFSET) *
           (SPEED_OF_LIGHT * (100 / 1000000000) / N_PURE_WATER)),
         sw * r.getD 1 0 + tw * ((r.getD 3 0 - WCSIM_TRIGGER_TIME_OFFSET) *
           (SPEED_OF_LIGHT * (100 / 1000000000) / N_PURE_WATER)),
         sw * r.getD 2 0 + tw * ((r.getD 3 0 - WCSIM_TRIGGER_TIME_OFFSET) *
           (SPEED_OF_LIGHT * (100 / 1000000000) / N_PURE_WATER))], m)) := by
  constructor
  · by_cases h : m.ncols = 4
    · rw [process_coords_spacetime, if_neg (by rw [h]; exact fun hc => hc rfl)]
      constructor
      · rintro ⟨e, he⟩
        cases he
      · intro hc
        exact absurd h hc
    · rw [process_coords_spacetime, if_pos h]
      exact ⟨fun _ => h, fun _ => ⟨_, rfl⟩⟩
  · intro h4 hstd
    rw [process_coords_spacetime, if_neg (by rw [h4]; exact fun hc => hc rfl), hstd]
    simp only [Bool.false_eq_true, if_false, spacetimeCopy, List.map_map]
    rfl

/-- Witness for C8: one node at (1, 2, 3) with t = 4, effective speed 1 and no
offset gives the row (1, 2, 3) + 4·(1, 1, 1) = (5, 6, 7), with the input
buffer returned unchanged. -/
theorem C8_witness :
    process_coords_spacetime 10000000 1 0 id ⟨[[1, 2, 3, 4]], 4⟩ false 1 1 =
      .ok ([[5, 6, 7]], ⟨[[1, 2, 3, 4]], 4⟩) := by
  rw [(C8_spacetime_four_dims_and_formula 10000000 1 0 id ⟨[[1, 2, 3, 4]], 4⟩ false 1 1).2
    rfl rfl]
  with_unfolding_all rfl

/-! ### Dataset Driver event loop, edge_index_generator.py lines 171-232

The stores are hdf5 files keyed by dataset name; an edge-index dataset is
written under "event_<n>" and its selection mask under "event_<n>_mask". The
per-event pipeline (feature stacking, selection, EdgeBuilder) enters as the
function `compute`, whose `.ok none` outcome models the `continue` taken when
the filtered node set is empty and whose `.ok (some (edges, mask?))` outcome
models a computed edge index with an optional mask to persist. -/

inductive DSet where
  | edges (e : List (ℕ × ℕ))
  | mask (m : List ℕ)
deriving DecidableEq

abbrev Store := List (String × DSet)

def Store.containsName (s : Store) (k : String) : Bool :=
  s.any fun p => decide (p.1 = k)

def Store.eraseName (s : Store) (k : String) : Store :=
  s.filter fun p => decide (p.1 ≠ k)

def Store.insertName (s : Store) (k : String) (v : DSet) : Store := (k, v) :: s

/-- One iteration of the event loop: skip when the output dataset exists and
overwrite is off (before any computation or write); otherwise run the
pipeline, skip on an empty filtered set, and else delete-then-create the edge
dataset and, when a mask was produced, the mask dataset. -/
def processEvent {ε : Type} (overwrite : Bool)
    (compute : ε → Except String (Option (List (ℕ × ℕ) × Option (List ℕ))))
    (s : Store) (ev : String × ε) : Except String Store :=
  if s.containsName ev.1 && !overwrite then .ok s
  else
    compute ev.2 >>= fun out =>
      match out with
      | none => .ok s
      | some (ei, mo) =>
        match mo with
        | some msk =>
          .ok ((((s.eraseName ev.1).eraseName (ev.1 ++ "_mask")).insertName ev.1
            (DSet.edges ei)).insertName (ev.1 ++ "_mask") (DSet.mask msk))
        | none =>
          .ok (((s.eraseName ev.1).eraseName (ev.1 ++ "_mask")).insertName ev.1
            (DSet.edges ei))

/-- The driver loop over the (already name-sorted) event list. -/
def runLoop {ε : Type} (overwrite : Bool)
    (compute : ε → Except String (Option (List (ℕ × ℕ) × Option (List ℕ))))
    (events : List (String × ε)) (s : Store) : Except String Store :=
  events.foldlM (processEvent overwrite compute) s

theorem containsName_insertName (s : Store) (k x : String) (v : DSet) :
    ((s.insertName k v).containsName x) = (decide (k = x) || s.containsName x) := by
  simp [Store.insertName, Store.containsName]

theorem containsName_eraseName_ne (s : Store) (k x : String) (h : x ≠ k) :
    ((s.eraseName k).containsName x) = s.containsName x := by
  rw [Bool.eq_iff_iff]
  simp only [Store.containsName, Store.eraseName, List.any_eq_true, List.mem_filter,
    decide_eq_true_eq]
  constructor
  · rintro ⟨p, ⟨hp, _⟩, he⟩
    exact ⟨p, hp, he⟩
  · rintro ⟨p, hp, he⟩
    exact ⟨p, ⟨hp, by rw [he]; exact h⟩, he⟩

theorem processEvent_skip {ε : Type}
    (compute : ε → Except String (Option (List (ℕ × ℕ) × Option (List ℕ))))
    (s : Store) (ev : String × ε) (h : s.containsName ev.1 = true) :
    processEvent false compute s ev = .ok s := by
  rw [processEvent, if_pos (by rw [h]; rfl)]

/-- Containment of a dataset name survives the processing of an event whose
mask companion name differs from it. -/
theorem containsName_preserved {ε : Type} (ow : Bool)
    (compute : ε → Except String (Option (List (ℕ × ℕ) × Option (List ℕ))))
    (s s2 : Store) (g : String × ε) (x : String)
    (hx : s.containsName x = true) (hxg : x ≠ g.1 ++ "_mask")
    (h : processEvent ow compute s g = .ok s2) : s2.containsName x = true := by
  rw [processEvent] at h
  by_cases hskip : (s.containsName g.1 && !ow) = true
  · rw [if_pos hskip] at h
    rw [← Except.ok.inj h]
    exact hx
  · rw [if_neg hskip] at h
    cases hc : compute g.2 with
    | error e =>
      rw [hc] at h
      cases h
    | ok out =>
      rw [hc, ok_bind] at h
      match out with
      | none =>
        rw [← Except.ok.inj h]
        exact hx
      | some (ei, some msk) =>
        rw [← Except.ok.inj h]
        by_cases hxg1 : x = g.1
        · rw [containsName_insertName, containsName_insertName]
          subst hxg1
          simp
        · rw [containsName_insertName, containsName_insertName,
            containsName_eraseName_ne _ _ _ hxg, containsName_eraseName_ne _ _ _ hxg1, hx]
          simp
      | some (ei, none) =>
        rw [← Except.ok.inj h]
        by_cases hxg1 : x = g.1
        · rw [containsName_insertName]
          subst hxg1
          simp
        · rw [containsName_insertName,
            containsName_eraseName_ne _ _ _ hxg, containsName_eraseName_ne _ _ _ hxg1, hx]
          simp

theorem runLoop_preserves_containsName {ε : Type}
    (compute : ε → Except String (Option (List (ℕ × ℕ) × Option (List ℕ)))) :
    ∀ (events : List (String × ε)) (s s1 : Store) (x : String),
      runLoop false compute events s = .ok s1 →
      s.containsName x = true →
      (∀ g ∈ events, x ≠ g.1 ++ "_mask") →
      s1.containsName x = true := by
  intro events
  induction events with
  | nil =>
    intro s s1 x h hx _
    rw [← Except.ok.inj h]
    exact hx
  | cons g rest ih =>
    intro s s1 x h hx hmask
    rw [runLoop, List.foldlM_cons] at h
    cases hp : processEvent false compute s g with
    | error e =>
      rw [hp] at h
      cases h
    | ok s2 =>
      rw [hp, ok_bind] at h
      exact ih s2 s1 x h
        (containsName_preserved false compute s s2 g x hx (hmask g (by simp)) hp)
        (fun g2 hg2 => hmask g2 (by simp [hg2]))

/-- After a completed run with overwrite off, every event either has its
dataset in the resulting store or its pipeline deterministically reports an
empty filtered set. -/
theorem runLoop_mem_skip_or_none {ε : Type}
    (compute : ε → Except String (Option (List (ℕ × ℕ) × Option (List ℕ)))) :
    ∀ (events : List (String × ε)) (s0 s1 : Store),
      runLoop false compute events s0 = .ok s1 →
      (events.map Prod.fst).Pairwise (fun a b => a ≠ b ++ "_mask") →
      ∀ ev ∈ events, s1.containsName ev.1 = true ∨ compute ev.2 = .ok none := by
  intro events
  induction events with
  | nil =>
    intro s0 s1 _ _ ev hev
    cases hev
  | cons g rest ih =>
    intro s0 s1 h hpw ev hev
    rw [runLoop, List.foldlM_cons] at h
    cases hp : processEvent false compute s0 g with
    | error e =>
      rw [hp] at h
      cases h
    | ok s2 =>
      rw [hp, ok_bind] at h
      have hpw1 : ∀ b ∈ rest.map Prod.fst, g.1 ≠ b ++ "_mask" :=
        (List.pairwise_cons.mp hpw).1
      have hpw2 : (rest.map Prod.fst).Pairwise (fun a b => a ≠ b ++ "_mask") :=
        (List.pairwise_cons.mp hpw).2
      rcases List.mem_cons.mp hev with hev1 | hev2
      · subst hev1
        rw [processEvent] at hp
        by_cases hskip : (s0.containsName ev.1 && !false) = true
        · rw [if_pos hskip] at hp
          left
          refine runLoop_preserves_containsName compute rest s2 s1 ev.1 h ?_ ?_
          · rw [← Except.ok.inj hp]
            exact (Bool.and_eq_true _ _).mp hskip |>.1
          · intro g2 hg2
            exact hpw1 g2.1 (List.mem_map_of_mem _ hg2)
        · rw [if_neg hskip] at hp
          cases hc : compute ev.2 with
          | error e =>
            rw [hc] at hp
            cases hp
          | ok out =>
            rw [hc, ok_bind] at hp
            match out with
            | none =>
              right
              rfl
            | some (ei, some msk) =>
              left
              refine runLoop_preserves_containsName compute rest s2 s1 ev.1 h ?_ ?_
              · rw [← Except.ok.inj hp, containsName_insertName, containsName_insertName]
                simp
              · intro g2 hg2
                exact hpw1 g2.1 (List.mem_map_of_mem _ hg2)
            | some (ei, none) =>
              left
              refine runLoop_preserves_containsName compute rest s2 s1 ev.1 h ?_ ?_
              · rw [← Except.ok.inj hp, containsName_insertName]
                simp
              · intro g2 hg2
                exact hpw1 g2.1 (List.mem_map_of_mem _ hg2)
      · exact ih s2 s1 h hpw2 ev hev2

theorem processEvent_fixed {ε : Type}
    (compute : ε → Except String (Option (List (ℕ × ℕ) × Option (List ℕ))))
    (s1 : Store) (ev : String × ε)
    (h : s1.containsName ev.1 = true ∨ compute ev.2 = .ok none) :
    processEvent false compute s1 ev = .ok s1 := by
  rcases h with h | h
  · exact processEvent_skip compute s1 ev h
  · rw [processEvent]
    by_cases hskip : (s1.containsName ev.1 && !false) = true
    · rw [if_pos hskip]
    · rw [if_neg hskip, h, ok_bind]

theorem runLoop_fixed {ε : Type}
    (compute : ε → Except String (Option (List (ℕ × ℕ) × Option (List ℕ)))) :
    ∀ (events : List (String × ε)) (s1 : Store),
      (∀ ev ∈ events, processEvent false compute s1 ev = .ok s1) →
      runLoop false compute events s1 = .ok s1 := by
  intro events
  induction events with
  | nil =>
    intro s1 _
    rfl
  | cons g rest ih =>
    intro s1 h
    rw [runLoop, List.foldlM_cons, h g (by simp), ok_bind]
    exact ih s1 (fun ev hev => h ev (by simp [hev]))

/-- C9: with `overwrite = False`, an event whose output dataset already exists
is skipped before any computation or write - the loop step returns the store
unchanged for every pipeline function, including a raising one - and
consequently a second identical run over the store produced by a first run
performs no writes at all: it returns that store unchanged, so every
previously stored edge and mask dataset is byte-identical. The event names
are assumed not to collide with each other's "_mask" companions (true of the
"event_<n>" naming convention). -/
theorem C9_driver_skip_and_idempotent {ε : Type}
    (compute : ε → Except String (Option (List (ℕ × ℕ) × Option (List ℕ))))
    (events : List (String × ε)) (s0 s1 : Store)
    (hnames : (events.map Prod.fst).Pairwise (fun a b => a ≠ b ++ "_mask"))
    (hrun : runLoop false compute events s0 = .ok s1) :
    (∀ (c : ε → Except String (Option (List (ℕ × ℕ) × Option (List ℕ))))
      (s : Store) (ev : String × ε),
      s.containsName ev.1 = true → processEvent false c s ev = .ok s) ∧
    runLoop false compute events s1 = .ok s1 := by
  constructor
  · intro c s ev hc
    exact processEvent_skip c s ev hc
  · exact runLoop_fixed compute events s1 (fun ev hev =>
      processEvent_fixed compute s1 ev
        (runLoop_mem_skip_or_none compute events s0 s1 hrun hnames ev hev))

/-- Witness for C9: a one-event run from the empty store writes the edge and
mask datasets; a second run over the produced store returns it unchanged. -/
theorem C9_witness :
    runLoop false (fun _ => .ok (some ([(0, 1), (1, 0)], some [1, 1])))
      [("event_0", ())] ([] : Store) =
      .ok [("event_0_mask", DSet.mask [1, 1]), ("event_0", DSet.edges [(0, 1), (1, 0)])] ∧
    runLoop false (fun _ => .ok (some ([(0, 1), (1, 0)], some [1, 1])))
      [("event_0", ())]
      [("event_0_mask", DSet.mask [1, 1]), ("event_0", DSet.edges [(0, 1), (1, 0)])] =
      .ok [("event_0_mask", DSet.mask [1, 1]), ("event_0", DSet.edges [(0, 1), (1, 0)])] := by
  have h1 : runLoop false (fun _ => .ok (some ([(0, 1), (1, 0)], some [1, 1])))
      [("event_0", ())] ([] : Store) =
      .ok [("event_0_mask", DSet.mask [1, 1]), ("event_0", DSet.edges [(0, 1), (1, 0)])] := by
    decide
  exact ⟨h1, (C9_driver_skip_and_idempotent (fun _ => .ok (some ([(0, 1), (1, 0)], some [1, 1])))
    [("event_0", ())] [] _ (by simp) h1).2⟩

end Events2Graph
